import Mathlib

/-!
Verification of the streaming percentile/median accumulator engine
(`accumulator_percentile.cpp`) against its design specification.

The accumulator file itself (validation, ingestion, memory enforcement,
finalization, the median adapter) is embedded directly from the source.
The bodies of the percentile algorithms (`percentile_algo_accurate.cpp`,
the t-digest sketch) and the `MemoryUsageTracker` are not part of the
available sources; those definitions are modelled from the spec and are
marked as such in their doc comments.

Numeric values are modelled as rationals (`ℚ`): the spec requires the
exact methods to be numerically exact, and every concrete value exercised
by the spec and its tests is an exact decimal.
-/

/-- Computable floor of a rational, mirror of `Int.floor` (`⌊q⌋`). -/
def qfloor (q : ℚ) : ℤ := q.num / (q.den : ℤ)

/-- Computable ceiling of a rational, mirror of `Int.ceil` (`⌈q⌉`). -/
def qceil (q : ℚ) : ℤ := -qfloor (-q)

/-- Modelled from the spec: the exact algorithms keep a growable buffer of the
incorporated values and answer percentile queries against the sorted buffer.
`sortQ` is that sorting step. -/
def sortQ (l : List ℚ) : List ℚ := List.insertionSort (· ≤ ·) l

/-- A BSON-like runtime `Value`, restricted to the shapes the accumulator
inspects: numbers (modelled as `ℚ`), null, strings, arrays and dates; a
"missing" field is represented by its own constructor. -/
inductive Value where
  | num (q : ℚ)
  | null
  | str (s : String)
  | arr (elems : List Value)
  | date (millis : ℤ)
  | missing

/-- Embeds `Value::numeric()`: only `num` is numeric. -/
def Value.numeric : Value → Bool
  | Value.num _ => true
  | _ => false

/-- Embeds `Value::coerceToDouble()`; the accumulator only calls it after a
`numeric()` check, so the non-numeric default is never reached. -/
def Value.coerceToDouble : Value → ℚ
  | Value.num q => q
  | _ => 0

/-- Embeds `Value::isArray()`. -/
def Value.isArray : Value → Bool
  | Value.arr _ => true
  | _ => false

/-- Embeds `Value::getArray()` (empty for non-arrays; the code guards with `isArray`). -/
def Value.getArray : Value → List Value
  | Value.arr vs => vs
  | _ => []

/-- Embeds `PercentileMethodEnum` from the IDL: the three recognized methods. -/
inductive PercentileMethodEnum where
  | kApproximate
  | kDiscrete
  | kContinuous
deriving DecidableEq

/-- Error identities observed in the source: named `ErrorCodes` constants and
numeric `uassert`/`uasserted` location codes. -/
inductive ErrCode where
  | badValue
  | exceededMemoryLimit
  | location (n : ℕ)
deriving DecidableEq

/-- An error `Status`: its code and its message. -/
structure Err where
  code : ErrCode
  msg : String

/-- The spec's error taxonomy groups every construction/validation-time error
under `InvalidSpecification`; memory aborts are resource errors, not
specification errors. -/
def ErrCode.isSpecificationError : ErrCode → Bool
  | ErrCode.badValue => true
  | ErrCode.location _ => true
  | ErrCode.exceededMemoryLimit => false

/-- Method name constant `AccumulatorPercentile::kApproximate`. -/
def kApproximate : String := "approximate"

/-- Method name constant `AccumulatorPercentile::kDiscrete`. -/
def kDiscrete : String := "discrete"

/-- Method name constant `AccumulatorPercentile::kContinuous`. -/
def kContinuous : String := "continuous"

/-- Modelled from the spec: `DiscreteExact` — "percentile `p` over `n` sorted
values returns the value at rank `ceil(p * n)` (1-indexed), clamped to
[1, n]" (`percentile_algo_discrete` is not among the available sources). -/
def discreteOf (sorted : List ℚ) (p : ℚ) : ℚ :=
  sorted.getD
    ((max 1 (min (qceil (p * (sorted.length : ℚ))) (sorted.length : ℤ))).toNat - 1) 0

/-- Modelled from the spec: `ContinuousExact` — "the linear interpolation
between adjacent order statistics at fractional rank `p * (n - 1)`
(0-indexed)" (`percentile_algo_continuous` is not among the available
sources). When the fractional rank is integral the order statistic itself is
returned; otherwise the two adjacent order statistics are interpolated. -/
def continuousOf (sorted : List ℚ) (p : ℚ) : ℚ :=
  if qceil (p * ((sorted.length : ℚ) - 1)) = qfloor (p * ((sorted.length : ℚ) - 1)) then
    sorted.getD (qfloor (p * ((sorted.length : ℚ) - 1))).toNat 0
  else
    (1 - (p * ((sorted.length : ℚ) - 1) - (qfloor (p * ((sorted.length : ℚ) - 1)) : ℚ)))
        * sorted.getD (qfloor (p * ((sorted.length : ℚ) - 1))).toNat 0
      + (p * ((sorted.length : ℚ) - 1) - (qfloor (p * ((sorted.length : ℚ) - 1)) : ℚ))
        * sorted.getD (qceil (p * ((sorted.length : ℚ) - 1))).toNat 0

/-- Modelled from the spec: per-fraction computation of one algorithm.
The approximate sketch's estimation formula is deliberately left open by the
spec (§9, "not shown in the available material"); no claim depends on its
value, only on output cardinality, so it is modelled as an uncompressed
sketch answering the exact continuous percentile. -/
def computeOne : PercentileMethodEnum → List ℚ → ℚ → ℚ
  | PercentileMethodEnum.kDiscrete, sorted, p => discreteOf sorted p
  | PercentileMethodEnum.kContinuous, sorted, p => continuousOf sorted p
  | PercentileMethodEnum.kApproximate, sorted, p => continuousOf sorted p

/-- Modelled from the spec: `computePercentiles` returns one value per
requested fraction, in request order, and the empty list when zero values
were ever incorporated (the algorithm bodies are not among the available
sources; the accumulator's `formatFinalValue` relies on exactly this
empty-output behaviour). -/
def computePercentiles (m : PercentileMethodEnum) (buffer : List ℚ)
    (ps : List ℚ) : List ℚ :=
  if buffer.isEmpty then []
  else ps.map (computeOne m (sortQ buffer))

/-- Modelled from the spec: `memoryFootprintBytes()` of the algorithm — the
retained buffer at 8 bytes (one double) per value. -/
def algoMemUsageBytes (buffer : List ℚ) : ℕ := 8 * buffer.length

/-- Modelled from the spec: `sizeof(*this)` of the accumulator object, an
arbitrary fixed object size; every claim treats it as an opaque constant. -/
def accumulatorSizeofBytes : ℕ := 168

/-- Modelled from the spec: the `MemoryUsageTracker` — "tracks
current/maximum bytes for one accumulator instance" (its source is not among
the available files). -/
structure MemoryUsageTracker where
  maxAllowedMemoryUsageBytes : ℕ
  currentMemoryBytes : ℕ

/-- Embeds `MemoryUsageTracker::set`: overwrite the current usage. -/
def MemoryUsageTracker.set (t : MemoryUsageTracker) (b : ℕ) : MemoryUsageTracker :=
  { t with currentMemoryBytes := b }

/-- Modelled from the spec: `withinMemoryLimit` — the accumulator aborts once
`currentBytes > maxBytes`, so the limit is respected while `current ≤ max`. -/
def MemoryUsageTracker.withinMemoryLimit (t : MemoryUsageTracker) : Bool :=
  t.currentMemoryBytes ≤ t.maxAllowedMemoryUsageBytes

/-- The `ExceededMemoryLimit` message built in `processInternal`; the
`fmt::format` call interpolates the tracker's current usage and limit. -/
def memMsg (used limit : ℕ) : String :=
  "$percentile used too much memory and cannot spill to disk. Used: "
    ++ toString used ++ " bytes. Memory limit: " ++ toString limit ++ " bytes"

/-- The error raised by the two `uassert(ErrorCodes::ExceededMemoryLimit, ...)`
calls in `processInternal`. -/
def memoryLimitError (t : MemoryUsageTracker) : Err :=
  ⟨ErrCode.exceededMemoryLimit,
    memMsg t.currentMemoryBytes t.maxAllowedMemoryUsageBytes⟩

/-- Extract a number from a serialized element. -/
def numOf : Value → Option ℚ
  | Value.num q => some q
  | _ => none

/-- Modelled from the spec: `PartialPercentile<Value>::serialize()` for the
exact methods — the mergeable snapshot carries the retained values
("bit-for-bit reconstructible via concatenation semantics"). -/
def serializeBuf (buffer : List ℚ) : Value :=
  Value.arr (buffer.map Value.num)

/-- Modelled from the spec: reading a serialized snapshot back; `combine`
appends the carried values to the receiving instance's buffer. -/
def deserializeBuf : Value → List ℚ
  | Value.arr vs => vs.filterMap numOf
  | _ => []

/-- State of `AccumulatorPercentile`: the requested fractions, the method, the
owned algorithm instance (its retained values), and the memory tracker. -/
structure AccumulatorPercentile where
  percentiles : List ℚ
  method : PercentileMethodEnum
  buffer : List ℚ
  memUsageTracker : MemoryUsageTracker

/-- The `AccumulatorPercentile` constructor: stores the fractions, creates an
empty algorithm of the requested method, and initializes the tracker to
`sizeof(*this) + _algo->memUsageBytes()`. -/
def AccumulatorPercentile.construct (ps : List ℚ) (m : PercentileMethodEnum)
    (maxBytes : ℕ) : AccumulatorPercentile :=
  { percentiles := ps
    method := m
    buffer := []
    memUsageTracker :=
      { maxAllowedMemoryUsageBytes := maxBytes
        currentMemoryBytes := accumulatorSizeofBytes + algoMemUsageBytes [] } }

/-- Embeds `AccumulatorPercentile::processInternal`: when merging, combine the
serialized peer state, recompute the tracker, and fail if over the limit;
otherwise drop non-numeric input, incorporate the coerced double, recompute
the tracker, and fail if over the limit. The returned state is the state at
the moment the call ends, error or not. -/
def AccumulatorPercentile.processInternal (acc : AccumulatorPercentile)
    (input : Value) (merging : Bool) :
    AccumulatorPercentile × Except Err Unit :=
  if merging then
    let buf := acc.buffer ++ deserializeBuf input
    let tracker := acc.memUsageTracker.set (accumulatorSizeofBytes + algoMemUsageBytes buf)
    let acc' := { acc with buffer := buf, memUsageTracker := tracker }
    if tracker.withinMemoryLimit then (acc', Except.ok ())
    else (acc', Except.error (memoryLimitError tracker))
  else if !input.numeric then (acc, Except.ok ())
  else
    let buf := acc.buffer ++ [input.coerceToDouble]
    let tracker := acc.memUsageTracker.set (accumulatorSizeofBytes + algoMemUsageBytes buf)
    let acc' := { acc with buffer := buf, memUsageTracker := tracker }
    if tracker.withinMemoryLimit then (acc', Except.ok ())
    else (acc', Except.error (memoryLimitError tracker))

/-- Embeds `AccumulatorPercentile::formatFinalValue`: a sequence of nulls of the
requested cardinality when the algorithm produced nothing, otherwise the
computed values as a sequence. -/
def formatFinalValue (nPercentiles : ℕ) (pctls : List ℚ) : Value :=
  if pctls.isEmpty then Value.arr (List.replicate nPercentiles Value.null)
  else Value.arr (pctls.map Value.num)

/-- Embeds `AccumulatorPercentile::getValue`: the serialized snapshot when finalizing
for a merge, otherwise the formatted final value. -/
def AccumulatorPercentile.getValue (acc : AccumulatorPercentile)
    (toBeMerged : Bool) : Value :=
  if toBeMerged then serializeBuf acc.buffer
  else formatFinalValue acc.percentiles.length
    (computePercentiles acc.method acc.buffer acc.percentiles)

/-- Embeds `AccumulatorPercentile::reset`: recreate an empty algorithm of the same
method and recompute the tracker. -/
def AccumulatorPercentile.reset (acc : AccumulatorPercentile) : AccumulatorPercentile :=
  { acc with
    buffer := []
    memUsageTracker :=
      acc.memUsageTracker.set (accumulatorSizeofBytes + algoMemUsageBytes []) }

/-- Embeds `AccumulatorPercentile::validatePercentileMethod`: when the
`featureFlagAccuratePercentiles` gate is enabled, the three names are
accepted; when it is disabled, only "approximate" is. Both rejections carry
`ErrorCodes::BadValue`. -/
def validatePercentileMethod (gateEnabled : Bool) (method : String) : Except Err Unit :=
  if gateEnabled then
    if method ≠ kApproximate ∧ method ≠ kDiscrete ∧ method ≠ kContinuous then
      Except.error ⟨ErrCode.badValue,
        "Currently only \x27approximate\x27, \x27discrete\x27, and \x27continuous\x27 can be used as percentile \x27method\x27."⟩
    else Except.ok ()
  else
    if method ≠ kApproximate then
      Except.error ⟨ErrCode.badValue,
        "Currently only \x27approximate\x27 can be used as percentile \x27method\x27."⟩
    else Except.ok ()

/-- Embeds `methodNameToEnum`: map a recognized name to the enum;
`uasserted(7766600, ...)` otherwise. -/
def methodNameToEnum (method : String) : Except Err PercentileMethodEnum :=
  if method = kApproximate then Except.ok PercentileMethodEnum.kApproximate
  else if method = kDiscrete then Except.ok PercentileMethodEnum.kDiscrete
  else if method = kContinuous then Except.ok PercentileMethodEnum.kContinuous
  else Except.error ⟨ErrCode.location 7766600,
    "Currently only approximate percentiles are supported"⟩

/-- The outcome of `Expression::parseOperand(...)->optimize()` on the
`p` argument: either it folded to a constant `Value`, or it did not. -/
inductive PExpr where
  | const (v : Value)
  | nonconst

/-- The element loop of `parseP`: each element must be numeric and its coerced
double must lie in [0, 1]; failures carry the loop's `uasserted` codes. -/
def parsePElems : List Value → Except Err (List ℚ)
  | [] => Except.ok []
  | pv :: rest =>
    if !pv.numeric then
      Except.error ⟨ErrCode.location 7750302,
        "The $percentile \x27p\x27 field must be an array of numbers from [0.0, 1.0], but found a non-numeric element"⟩
    else
      let p := pv.coerceToDouble
      if p < 0 ∨ p > 1 then
        Except.error ⟨ErrCode.location 7750303,
          "The $percentile \x27p\x27 field must be an array of numbers from [0.0, 1.0], but found an out-of-range element"⟩
      else
        match parsePElems rest with
        | Except.error e => Except.error e
        | Except.ok ps => Except.ok (p :: ps)

/-- Embeds `parseP`: the `p` argument must optimize to a constant, be a non-empty
array, and every element must be an in-range number. -/
def parseP : PExpr → Except Err (List ℚ)
  | PExpr.nonconst =>
    Except.error ⟨ErrCode.location 7750300,
      "The $percentile \x27p\x27 field must be an array of constant values"⟩
  | PExpr.const v =>
    if v.isArray = false ∨ v.getArray.length = 0 then
      Except.error ⟨ErrCode.location 7750301,
        "The $percentile \x27p\x27 field must be an array of numbers from [0.0, 1.0]"⟩
    else parsePElems v.getArray

/-- The construction pipeline of `AccumulatorPercentile::parseArgs` restricted
to its validation-relevant steps: the IDL spec parse validates the method
name (through `validatePercentileMethod`), `parseP` validates the fractions,
`methodNameToEnum` resolves the method, and the constructor stores the parsed
fractions. -/
def createAccumulator (gateEnabled : Bool) (pExpr : PExpr) (method : String)
    (maxBytes : ℕ) : Except Err AccumulatorPercentile :=
  match validatePercentileMethod gateEnabled method with
  | Except.error e => Except.error e
  | Except.ok _ =>
    match parseP pExpr with
    | Except.error e => Except.error e
    | Except.ok ps =>
      match methodNameToEnum method with
      | Except.error e => Except.error e
      | Except.ok m => Except.ok (AccumulatorPercentile.construct ps m maxBytes)

/-- Feed a stream of input documents to the accumulator, one
`processInternal(input, false)` per value, stopping at the first failure
(an exception aborts the evaluation). -/
def ingestStream : AccumulatorPercentile → List Value →
    AccumulatorPercentile × Except Err Unit
  | acc, [] => (acc, Except.ok ())
  | acc, v :: rest =>
    match acc.processInternal v false with
    | (a, Except.ok _) => ingestStream a rest
    | (a, Except.error e) => (a, Except.error e)

/-- Merge a sequence of serialized peer states, one
`processInternal(input, true)` per payload, stopping at the first failure. -/
def mergeStream : AccumulatorPercentile → List Value →
    AccumulatorPercentile × Except Err Unit
  | acc, [] => (acc, Except.ok ())
  | acc, v :: rest =>
    match acc.processInternal v true with
    | (a, Except.ok _) => mergeStream a rest
    | (a, Except.error e) => (a, Except.error e)

/-- The state after merging one serialized peer, error or not (the combine
happens before the memory check). -/
def mergeState (acc : AccumulatorPercentile) (v : Value) : AccumulatorPercentile :=
  (acc.processInternal v true).1

/-- Embeds `AccumulatorMedian::formatFinalValue`: a bare null with no data, the bare
front value with data; `tassert(7436101, ...)` demands exactly one computed
value, modelled as `none` (a fatal internal-consistency failure). The
`nPercentiles` argument is unused, as in the source. -/
def medianFormatFinalValue (_nPercentiles : ℕ) : List ℚ → Option Value
  | [] => some Value.null
  | [q] => some (Value.num q)
  | _ => none

/-- Embeds `AccumulatorMedian::getValue`: the merge-phase output defers entirely to
`AccumulatorPercentile::getValue`; the non-merge output is the median's
scalar shaping. -/
def medianGetValue (acc : AccumulatorPercentile) (toBeMerged : Bool) : Option Value :=
  if toBeMerged then some (acc.getValue true)
  else medianFormatFinalValue acc.percentiles.length
    (computePercentiles acc.method acc.buffer acc.percentiles)

/-- The `AccumulatorMedian` constructor: an `AccumulatorPercentile` fixed to
the single fraction 0.5. -/
def AccumulatorMedian.construct (m : PercentileMethodEnum) (maxBytes : ℕ) :
    AccumulatorPercentile :=
  AccumulatorPercentile.construct [1/2] m maxBytes

/-- Projection helpers for stating claims: the code of an error outcome. -/
def errCodeOf {α : Type} : Except Err α → Option ErrCode
  | Except.error e => some e.code
  | Except.ok _ => none

/-- Whether an outcome is a failure. -/
def isError {α : Type} : Except Err α → Bool
  | Except.error _ => true
  | Except.ok _ => false

/-- The length of an array value, if it is one. -/
def arrLen : Value → Option ℕ
  | Value.arr es => some es.length
  | _ => none

/-- The fraction-validity condition named by the claims: a non-empty array
whose elements are all numeric with coerced values inside [0, 1]. -/
def validFractionsValue : Value → Bool
  | Value.arr vs => !vs.isEmpty
      && vs.all (fun v => v.numeric && decide (0 ≤ v.coerceToDouble)
          && decide (v.coerceToDouble ≤ 1))
  | _ => false

/-- The method condition named by the claims: the name is one of the three
recognized method names. -/
def methodRecognized (method : String) : Bool :=
  method == kApproximate || method == kDiscrete || method == kContinuous

/-- The failure condition asserted by the claim on construction: the
fractions argument is non-constant or not a valid fraction array, or the
method name is outside the recognized set. -/
def claimFailCond (pExpr : PExpr) (method : String) : Bool :=
  (match pExpr with
   | PExpr.nonconst => true
   | PExpr.const v => !validFractionsValue v) || !methodRecognized method

theorem qfloor_eq (q : ℚ) : qfloor q = ⌊q⌋ := Rat.floor_def.symm

theorem qceil_eq (q : ℚ) : qceil q = ⌈q⌉ := by
  rw [qceil, qfloor_eq, Int.floor_neg]; ring

theorem sortQ_sorted (l : List ℚ) : List.Sorted (· ≤ ·) (sortQ l) :=
  List.sorted_insertionSort _ l

theorem sortQ_perm (l : List ℚ) : List.Perm (sortQ l) l :=
  List.perm_insertionSort _ l

theorem sortQ_eq_of_perm {l₁ l₂ : List ℚ} (h : List.Perm l₁ l₂) : sortQ l₁ = sortQ l₂ :=
  List.eq_of_perm_of_sorted (((sortQ_perm l₁).trans h).trans (sortQ_perm l₂).symm)
    (sortQ_sorted l₁) (sortQ_sorted l₂)

theorem sortQ_mem {l : List ℚ} {x : ℚ} : x ∈ sortQ l ↔ x ∈ l :=
  (sortQ_perm l).mem_iff

theorem sortQ_length (l : List ℚ) : (sortQ l).length = l.length :=
  (sortQ_perm l).length_eq

theorem sortQ_ne_nil {l : List ℚ} (h : l ≠ []) : sortQ l ≠ [] := by
  intro hs
  exact h (List.length_eq_zero.mp (by rw [← sortQ_length l, hs, List.length_nil]))

theorem getD_zero_mem {l : List ℚ} (h : l ≠ []) : l.getD 0 0 ∈ l := by
  cases l with
  | nil => exact absurd rfl h
  | cons a t => simp [List.getD]

theorem sorted_getD_zero_le {l : List ℚ} (hs : List.Sorted (· ≤ ·) l) :
    ∀ x ∈ l, l.getD 0 0 ≤ x := by
  cases l with
  | nil => intro x hx; cases hx
  | cons a t =>
    intro x hx
    rcases List.mem_cons.mp hx with h | h
    · simp [List.getD, h]
    · simpa [List.getD] using (List.sorted_cons.mp hs).1 x h

theorem getD_last_mem {l : List ℚ} (h : l ≠ []) : l.getD (l.length - 1) 0 ∈ l := by
  induction l with
  | nil => exact absurd rfl h
  | cons a t ih =>
    cases t with
    | nil => simp [List.getD]
    | cons b t' =>
      have ht : b :: t' ≠ [] := List.cons_ne_nil b t'
      have hlen : (a :: b :: t').length - 1 = ((b :: t').length - 1) + 1 := by
        simp
      rw [hlen, List.getD_cons_succ]
      exact List.mem_cons_of_mem a (ih ht)

theorem sorted_le_getD_last {l : List ℚ} (hs : List.Sorted (· ≤ ·) l) :
    ∀ x ∈ l, x ≤ l.getD (l.length - 1) 0 := by
  induction l with
  | nil => intro x hx; cases hx
  | cons a t ih =>
    intro x hx
    cases t with
    | nil =>
      rcases List.mem_cons.mp hx with h | h
      · simp [List.getD, h]
      · cases h
    | cons b t' =>
      have ht : b :: t' ≠ [] := List.cons_ne_nil b t'
      have hlen : (a :: b :: t').length - 1 = ((b :: t').length - 1) + 1 := by
        simp
      rw [hlen, List.getD_cons_succ]
      rcases List.mem_cons.mp hx with h | h
      · subst h
        exact le_trans ((List.sorted_cons.mp hs).1 _ (getD_last_mem ht))
          (le_refl _)
      · exact ih (List.sorted_cons.mp hs).2 x h

theorem processInternal_nonNumeric {acc : AccumulatorPercentile} {v : Value}
    (hv : v.numeric = false) :
    acc.processInternal v false = (acc, Except.ok ()) := by
  simp [AccumulatorPercentile.processInternal, hv]

theorem ingestStream_filter (vs : List Value) :
    ∀ acc : AccumulatorPercentile,
      ingestStream acc vs = ingestStream acc (vs.filter (fun v => v.numeric)) := by
  induction vs with
  | nil => intro acc; rfl
  | cons v rest ih =>
    intro acc
    by_cases hv : v.numeric = true
    · rw [List.filter_cons_of_pos (by simpa using hv)]
      show (match acc.processInternal v false with
        | (a, Except.ok _) => ingestStream a rest
        | (a, Except.error e) => (a, Except.error e)) = _
      rcases hpi : acc.processInternal v false with ⟨a, r⟩
      cases r with
      | ok u =>
        show ingestStream a rest = _
        rw [ih a]
        show _ = (match acc.processInternal v false with
          | (br, Except.ok _) => ingestStream br (rest.filter (fun v => v.numeric))
          | (br, Except.error e) => (br, Except.error e))
        rw [hpi]
      | error e =>
        show (a, Except.error e) = _
        show _ = (match acc.processInternal v false with
          | (br, Except.ok _) => ingestStream br (rest.filter (fun v => v.numeric))
          | (br, Except.error e) => (br, Except.error e))
        rw [hpi]
    · have hv' : v.numeric = false := by
        cases h : v.numeric
        · rfl
        · exact absurd h hv
      rw [List.filter_cons_of_neg (by simpa using hv')]
      show (match acc.processInternal v false with
        | (a, Except.ok _) => ingestStream a rest
        | (a, Except.error e) => (a, Except.error e)) = _
      rw [processInternal_nonNumeric hv']
      exact ih acc

theorem ingestStream_allNonNumeric {vs : List Value}
    (h : ∀ v ∈ vs, v.numeric = false) :
    ∀ acc : AccumulatorPercentile, ingestStream acc vs = (acc, Except.ok ()) := by
  induction vs with
  | nil => intro acc; rfl
  | cons v rest ih =>
    intro acc
    show (match acc.processInternal v false with
      | (a, Except.ok _) => ingestStream a rest
      | (a, Except.error e) => (a, Except.error e)) = _
    rw [processInternal_nonNumeric (h v (List.mem_cons_self v rest))]
    exact ih (fun x hx => h x (List.mem_cons_of_mem v hx)) acc

/-- C4: for every non-numeric input value (null, missing, arrays, dates,
strings), ingest is a no-op that never throws and leaves the whole state
(algorithm buffer and memory accounting) unchanged; a run over any stream
equals the run over only its numeric values; and an all-non-numeric stream
into a fresh accumulator over a fraction list of length k succeeds and
finalizes to a sequence of k nulls. -/
theorem C4_nonNumeric_ingest_noop :
    (∀ (acc : AccumulatorPercentile) (v : Value), v.numeric = false →
      acc.processInternal v false = (acc, Except.ok ())) ∧
    (∀ (acc : AccumulatorPercentile) (vs : List Value),
      ingestStream acc vs = ingestStream acc (vs.filter (fun v => v.numeric))) ∧
    (∀ (ps : List ℚ) (m : PercentileMethodEnum) (maxB : ℕ) (vs : List Value),
      (∀ v ∈ vs, v.numeric = false) →
      ingestStream (AccumulatorPercentile.construct ps m maxB) vs
          = (AccumulatorPercentile.construct ps m maxB, Except.ok ()) ∧
      (AccumulatorPercentile.construct ps m maxB).getValue false
          = Value.arr (List.replicate ps.length Value.null)) := by
  refine ⟨fun acc v hv => processInternal_nonNumeric hv,
    fun acc vs => ingestStream_filter vs acc,
    fun ps m maxB vs h => ⟨ingestStream_allNonNumeric h _, ?_⟩⟩
  rfl

/-- Witness for C4 at concrete inputs: a null is dropped without any state
change, and a stream of a string, a missing field, a date, an array and a
null into a fresh two-fraction continuous accumulator succeeds and yields
two nulls. -/
theorem C4_witness :
    (AccumulatorPercentile.construct [1/2, 9/10] PercentileMethodEnum.kContinuous
        1000).processInternal Value.null false
      = (AccumulatorPercentile.construct [1/2, 9/10] PercentileMethodEnum.kContinuous 1000,
         Except.ok ()) ∧
    ingestStream
        (AccumulatorPercentile.construct [1/2, 9/10] PercentileMethodEnum.kContinuous 1000)
        [Value.str "non-numeric", Value.missing, Value.date 0,
         Value.arr [Value.num 42, Value.num 43], Value.null]
      = (AccumulatorPercentile.construct [1/2, 9/10] PercentileMethodEnum.kContinuous 1000,
         Except.ok ()) ∧
    (AccumulatorPercentile.construct [1/2, 9/10] PercentileMethodEnum.kContinuous
        1000).getValue false
      = Value.arr (List.replicate ([1/2, 9/10] : List ℚ).length Value.null) := by
  have h := C4_nonNumeric_ingest_noop
  refine ⟨h.1 _ Value.null rfl, ?_, ?_⟩
  · exact (h.2.2 [1/2, 9/10] PercentileMethodEnum.kContinuous 1000
      [Value.str "non-numeric", Value.missing, Value.date 0,
       Value.arr [Value.num 42, Value.num 43], Value.null]
      (by intro v hv; fin_cases hv <;> rfl)).1
  · exact (h.2.2 [1/2, 9/10] PercentileMethodEnum.kContinuous 1000 []
      (by intro v hv; cases hv)).2

/-- C2: a non-merge finalize of the general percentile accumulator always
returns a sequence whose length is exactly the number of requested fractions;
with zero values seen (and zero merged, i.e. an empty buffer) every element
is null; and when at least one value was seen no element is null. -/
theorem C2_finalize_cardinality :
    ∀ acc : AccumulatorPercentile,
      arrLen (acc.getValue false) = some acc.percentiles.length ∧
      (acc.buffer = [] →
        acc.getValue false
          = Value.arr (List.replicate acc.percentiles.length Value.null)) ∧
      (acc.buffer ≠ [] →
        acc.getValue false
            = Value.arr ((acc.percentiles.map
                (computeOne acc.method (sortQ acc.buffer))).map Value.num) ∧
        ∀ e ∈ (acc.percentiles.map
            (computeOne acc.method (sortQ acc.buffer))).map Value.num,
          e ≠ Value.null) := by
  intro acc
  by_cases hb : acc.buffer = []
  · refine ⟨?_, fun _ => ?_, fun h => absurd hb h⟩
    · simp [AccumulatorPercentile.getValue, computePercentiles, hb,
        formatFinalValue, arrLen]
    · simp [AccumulatorPercentile.getValue, computePercentiles, hb,
        formatFinalValue]
  · have hne : acc.buffer.isEmpty = false := by
      cases h : acc.buffer with
      | nil => exact absurd h hb
      | cons a t => rfl
    refine ⟨?_, fun h => absurd h hb, fun _ => ⟨?_, ?_⟩⟩
    · by_cases hp : acc.percentiles = []
      · simp [AccumulatorPercentile.getValue, computePercentiles, hne,
          formatFinalValue, arrLen, hp]
      · have hpne : (acc.percentiles.map
            (computeOne acc.method (sortQ acc.buffer))).isEmpty = false := by
          cases h : acc.percentiles with
          | nil => exact absurd h hp
          | cons a t => rfl
        simp [AccumulatorPercentile.getValue, computePercentiles, hne,
          formatFinalValue, arrLen, hpne]
    · by_cases hp : acc.percentiles = []
      · simp [AccumulatorPercentile.getValue, computePercentiles, hne,
          formatFinalValue, hp]
      · have hpne : (acc.percentiles.map
            (computeOne acc.method (sortQ acc.buffer))).isEmpty = false := by
          cases h : acc.percentiles with
          | nil => exact absurd h hp
          | cons a t => rfl
        simp [AccumulatorPercentile.getValue, computePercentiles, hne,
          formatFinalValue, hpne]
    · intro e he
      rcases List.mem_map.mp he with ⟨q, _, hq⟩
      rw [← hq]
      intro hcontra
      cases hcontra

/-- Witness for C2 at concrete inputs: an empty two-fraction accumulator
finalizes to two nulls, and the same accumulator holding the samples 0,1,2
finalizes to an all-numeric sequence of length two. -/
theorem C2_witness :
    (AccumulatorPercentile.construct [1/2, 9/10] PercentileMethodEnum.kDiscrete
        1000).getValue false
      = Value.arr (List.replicate ([1/2, 9/10] : List ℚ).length Value.null) ∧
    arrLen ((AccumulatorPercentile.construct [1/2, 9/10]
        PercentileMethodEnum.kDiscrete 1000).getValue false)
      = some ([1/2, 9/10] : List ℚ).length ∧
    ({ percentiles := [1/2, 9/10], method := PercentileMethodEnum.kDiscrete,
       buffer := [0, 1, 2],
       memUsageTracker := ⟨1000, 0⟩ } : AccumulatorPercentile).getValue false
      = Value.arr ((([1/2, 9/10] : List ℚ).map
          (computeOne PercentileMethodEnum.kDiscrete (sortQ [0, 1, 2]))).map
            Value.num) := by
  have h1 := C2_finalize_cardinality
    (AccumulatorPercentile.construct [1/2, 9/10] PercentileMethodEnum.kDiscrete 1000)
  have h2 := C2_finalize_cardinality
    { percentiles := [1/2, 9/10], method := PercentileMethodEnum.kDiscrete,
      buffer := [0, 1, 2], memUsageTracker := ⟨1000, 0⟩ }
  exact ⟨h1.2.1 rfl, h1.1, (h2.2.2 (by simp)).1⟩

/-- C5: after every ingest of a numeric value and after every merge of a
serialized peer state, the tracker's current usage is recomputed as
`sizeof(accumulator) + algorithm footprint`; if that usage exceeds the
configured limit the operation fails with `ExceededMemoryLimit` whose message
reports exactly the usage and limit tracked at that moment, and otherwise it
succeeds; the accumulator never degrades (its method and fractions are
untouched either way). -/
theorem C5_memory_enforcement :
    ∀ (acc : AccumulatorPercentile) (v pl : Value),
      (v.numeric = true →
        (acc.processInternal v false).1.memUsageTracker.currentMemoryBytes
            = accumulatorSizeofBytes
              + algoMemUsageBytes (acc.buffer ++ [v.coerceToDouble]) ∧
        (accumulatorSizeofBytes + algoMemUsageBytes (acc.buffer ++ [v.coerceToDouble])
              ≤ acc.memUsageTracker.maxAllowedMemoryUsageBytes →
          (acc.processInternal v false).2 = Except.ok ()) ∧
        (acc.memUsageTracker.maxAllowedMemoryUsageBytes
              < accumulatorSizeofBytes
                + algoMemUsageBytes (acc.buffer ++ [v.coerceToDouble]) →
          (acc.processInternal v false).2
            = Except.error ⟨ErrCode.exceededMemoryLimit,
                memMsg
                  (accumulatorSizeofBytes
                    + algoMemUsageBytes (acc.buffer ++ [v.coerceToDouble]))
                  acc.memUsageTracker.maxAllowedMemoryUsageBytes⟩) ∧
        (acc.processInternal v false).1.method = acc.method ∧
        (acc.processInternal v false).1.percentiles = acc.percentiles) ∧
      ((acc.processInternal pl true).1.memUsageTracker.currentMemoryBytes
          = accumulatorSizeofBytes
            + algoMemUsageBytes (acc.buffer ++ deserializeBuf pl) ∧
       (accumulatorSizeofBytes + algoMemUsageBytes (acc.buffer ++ deserializeBuf pl)
            ≤ acc.memUsageTracker.maxAllowedMemoryUsageBytes →
         (acc.processInternal pl true).2 = Except.ok ()) ∧
       (acc.memUsageTracker.maxAllowedMemoryUsageBytes
            < accumulatorSizeofBytes
              + algoMemUsageBytes (acc.buffer ++ deserializeBuf pl) →
         (acc.processInternal pl true).2
           = Except.error ⟨ErrCode.exceededMemoryLimit,
               memMsg
                 (accumulatorSizeofBytes
                   + algoMemUsageBytes (acc.buffer ++ deserializeBuf pl))
                 acc.memUsageTracker.maxAllowedMemoryUsageBytes⟩) ∧
       (acc.processInternal pl true).1.method = acc.method ∧
       (acc.processInternal pl true).1.percentiles = acc.percentiles) := by
  intro acc v pl
  constructor
  · intro hv
    by_cases hm : accumulatorSizeofBytes
        + algoMemUsageBytes (acc.buffer ++ [v.coerceToDouble])
        ≤ acc.memUsageTracker.maxAllowedMemoryUsageBytes
    · simp [AccumulatorPercentile.processInternal, hv,
        MemoryUsageTracker.withinMemoryLimit, MemoryUsageTracker.set, hm]
    · simp [AccumulatorPercentile.processInternal, hv,
        MemoryUsageTracker.withinMemoryLimit, MemoryUsageTracker.set, hm,
        memoryLimitError]
  · by_cases hm : accumulatorSizeofBytes
        + algoMemUsageBytes (acc.buffer ++ deserializeBuf pl)
        ≤ acc.memUsageTracker.maxAllowedMemoryUsageBytes
    · simp [AccumulatorPercentile.processInternal,
        MemoryUsageTracker.withinMemoryLimit, MemoryUsageTracker.set, hm]
    · simp [AccumulatorPercentile.processInternal,
        MemoryUsageTracker.withinMemoryLimit, MemoryUsageTracker.set, hm,
        memoryLimitError]

/-- Witness for C5 at concrete inputs: with limit 200 the first ingest into a
fresh accumulator tracks 176 bytes and succeeds; with limit 100 the same
ingest fails with the message reporting 176 used against limit 100. -/
theorem C5_witness :
    ((AccumulatorPercentile.construct [1/2] PercentileMethodEnum.kApproximate
        200).processInternal (Value.num 1) false).2 = Except.ok () ∧
    ((AccumulatorPercentile.construct [1/2] PercentileMethodEnum.kApproximate
        100).processInternal (Value.num 1) false).1.memUsageTracker.currentMemoryBytes
      = 176 ∧
    ((AccumulatorPercentile.construct [1/2] PercentileMethodEnum.kApproximate
        100).processInternal (Value.num 1) false).2
      = Except.error ⟨ErrCode.exceededMemoryLimit, memMsg 176 100⟩ := by
  have hok := (C5_memory_enforcement
    (AccumulatorPercentile.construct [1/2] PercentileMethodEnum.kApproximate 200)
    (Value.num 1) Value.null).1 rfl
  have hbad := (C5_memory_enforcement
    (AccumulatorPercentile.construct [1/2] PercentileMethodEnum.kApproximate 100)
    (Value.num 1) Value.null).1 rfl
  refine ⟨hok.2.1 (by decide), ?_, ?_⟩
  · have := hbad.1
    simpa using this
  · have := hbad.2.2.1 (by decide)
    simpa using this

theorem processInternal_ingest_within {acc : AccumulatorPercentile} {v : Value}
    (hv : v.numeric = true)
    (hm : accumulatorSizeofBytes + algoMemUsageBytes (acc.buffer ++ [v.coerceToDouble])
      ≤ acc.memUsageTracker.maxAllowedMemoryUsageBytes) :
    (acc.processInternal v false).2 = Except.ok () := by
  simp [AccumulatorPercentile.processInternal, hv,
    MemoryUsageTracker.withinMemoryLimit, MemoryUsageTracker.set, hm]

theorem processInternal_merge_within {acc : AccumulatorPercentile} {pl : Value}
    (hm : accumulatorSizeofBytes + algoMemUsageBytes (acc.buffer ++ deserializeBuf pl)
      ≤ acc.memUsageTracker.maxAllowedMemoryUsageBytes) :
    (acc.processInternal pl true).2 = Except.ok () := by
  simp [AccumulatorPercentile.processInternal,
    MemoryUsageTracker.withinMemoryLimit, MemoryUsageTracker.set, hm]

/-- C10: ingest and merge are not atomic with respect to the memory-limit
failure: whenever `processInternal` reports `ExceededMemoryLimit`, the
offending value (resp. deserialized peer state) is already in the algorithm's
buffer and the tracker already records the over-limit usage; nothing is
rolled back. -/
theorem C10_no_rollback_on_memory_error :
    ∀ (acc : AccumulatorPercentile) (v : Value),
      ((∃ e, (acc.processInternal v false).2 = Except.error e) →
        v.numeric = true ∧
        (acc.processInternal v false).1.buffer = acc.buffer ++ [v.coerceToDouble] ∧
        (acc.processInternal v false).1.memUsageTracker.currentMemoryBytes
          = accumulatorSizeofBytes
            + algoMemUsageBytes (acc.buffer ++ [v.coerceToDouble]) ∧
        acc.memUsageTracker.maxAllowedMemoryUsageBytes
          < (acc.processInternal v false).1.memUsageTracker.currentMemoryBytes) ∧
      ((∃ e, (acc.processInternal v true).2 = Except.error e) →
        (acc.processInternal v true).1.buffer = acc.buffer ++ deserializeBuf v ∧
        (acc.processInternal v true).1.memUsageTracker.currentMemoryBytes
          = accumulatorSizeofBytes
            + algoMemUsageBytes (acc.buffer ++ deserializeBuf v) ∧
        acc.memUsageTracker.maxAllowedMemoryUsageBytes
          < (acc.processInternal v true).1.memUsageTracker.currentMemoryBytes) := by
  intro acc v
  constructor
  · rintro ⟨e, he⟩
    cases hv : v.numeric with
    | false =>
      rw [processInternal_nonNumeric hv] at he
      cases he
    | true =>
      by_cases hm : accumulatorSizeofBytes
          + algoMemUsageBytes (acc.buffer ++ [v.coerceToDouble])
          ≤ acc.memUsageTracker.maxAllowedMemoryUsageBytes
      · exfalso
        rw [processInternal_ingest_within hv hm] at he
        cases he
      · refine ⟨rfl, ?_, ?_, ?_⟩ <;>
          simp [AccumulatorPercentile.processInternal, hv,
            MemoryUsageTracker.withinMemoryLimit, MemoryUsageTracker.set, hm] <;>
          omega
  · rintro ⟨e, he⟩
    by_cases hm : accumulatorSizeofBytes
        + algoMemUsageBytes (acc.buffer ++ deserializeBuf v)
        ≤ acc.memUsageTracker.maxAllowedMemoryUsageBytes
    · exfalso
      rw [processInternal_merge_within hm] at he
      cases he
    · refine ⟨?_, ?_, ?_⟩ <;>
        simp [AccumulatorPercentile.processInternal,
          MemoryUsageTracker.withinMemoryLimit, MemoryUsageTracker.set, hm] <;>
        omega

/-- Witness for C10 at a concrete input: ingesting 1 into a fresh accumulator
limited to 100 bytes fails, yet the returned state already holds the value
and tracks 176 bytes, over the 100-byte limit. -/
theorem C10_witness :
    ((AccumulatorPercentile.construct [1/2] PercentileMethodEnum.kApproximate
        100).processInternal (Value.num 1) false).1.buffer = [1] ∧
    ((AccumulatorPercentile.construct [1/2] PercentileMethodEnum.kApproximate
        100).processInternal (Value.num 1)
          false).1.memUsageTracker.currentMemoryBytes = 176 ∧
    100 < 176 := by
  have h := (C10_no_rollback_on_memory_error
    (AccumulatorPercentile.construct [1/2] PercentileMethodEnum.kApproximate 100)
    (Value.num 1)).1
    ⟨⟨ErrCode.exceededMemoryLimit, memMsg 176 100⟩, by with_unfolding_all rfl⟩
  refine ⟨?_, ?_, by decide⟩
  · have := h.2.1
    simpa [AccumulatorPercentile.construct, Value.coerceToDouble] using this
  · have := h.2.2.1
    simpa [AccumulatorPercentile.construct, Value.coerceToDouble,
      accumulatorSizeofBytes, algoMemUsageBytes] using this

/-- C9: the median adapter's non-merge finalize with an empty buffer returns
a bare null (which is not a sequence); with data and the median's single
fraction it returns the single computed value unwrapped, the internal
one-result assertion holding (the fatal-assertion outcome `none` never
occurs); and its merge-phase finalize returns exactly the serialized state
the general percentile accumulator produces. -/
theorem C9_median_output_shape :
    (∀ acc : AccumulatorPercentile, acc.buffer = [] →
      medianGetValue acc false = some Value.null ∧
      ∀ l : List Value, Value.null ≠ Value.arr l) ∧
    (∀ acc : AccumulatorPercentile, acc.percentiles = [1/2] → acc.buffer ≠ [] →
      medianGetValue acc false
        = some (Value.num (computeOne acc.method (sortQ acc.buffer) (1/2)))) ∧
    (∀ acc : AccumulatorPercentile,
      medianGetValue acc true = some (acc.getValue true)) := by
  refine ⟨fun acc hb => ⟨?_, fun l h => by cases h⟩, fun acc hp hb => ?_, fun acc => rfl⟩
  · simp [medianGetValue, computePercentiles, hb, medianFormatFinalValue]
  · have hne : acc.buffer.isEmpty = false := by
      cases h : acc.buffer with
      | nil => exact absurd h hb
      | cons a t => rfl
    simp [medianGetValue, computePercentiles, hne, hp, medianFormatFinalValue]

/-- Witness for C9 at concrete inputs: a fresh continuous median accumulator
finalizes to a bare null; the same accumulator holding 5, 10, 27 finalizes to
the bare value 10; and its merge-phase finalize equals the general
accumulator's serialized state. -/
theorem C9_witness :
    medianGetValue (AccumulatorMedian.construct PercentileMethodEnum.kContinuous
        1000) false = some Value.null ∧
    medianGetValue (AccumulatorPercentile.mk [1/2] PercentileMethodEnum.kContinuous
        [10, 5, 27] ⟨1000, 0⟩) false = some (Value.num 10) ∧
    medianGetValue (AccumulatorPercentile.mk [1/2] PercentileMethodEnum.kContinuous
        [10, 5, 27] ⟨1000, 0⟩) true
      = some ((AccumulatorPercentile.mk [1/2] PercentileMethodEnum.kContinuous
          [10, 5, 27] ⟨1000, 0⟩).getValue true) := by
  have h := C9_median_output_shape
  refine ⟨(h.1 _ rfl).1, ?_, h.2.2 _⟩
  have h2 := h.2.1
    (AccumulatorPercentile.mk [1/2] PercentileMethodEnum.kContinuous
      [10, 5, 27] ⟨1000, 0⟩)
    rfl (by simp)
  rw [h2]
  have hc : computeOne PercentileMethodEnum.kContinuous (sortQ [10, 5, 27]) (1/2) = 10 := by
    with_unfolding_all decide
  rw [hc]

theorem continuousOf_zero (sorted : List ℚ) :
    continuousOf sorted 0 = sorted.getD 0 0 := by
  simp [continuousOf, qfloor_eq, qceil_eq]

theorem continuousOf_one {sorted : List ℚ} (h : sorted ≠ []) :
    continuousOf sorted 1 = sorted.getD (sorted.length - 1) 0 := by
  have hn : 1 ≤ sorted.length := List.length_pos.mpr h
  have hcast : (1 : ℚ) * ((sorted.length : ℚ) - 1)
      = ((sorted.length - 1 : ℕ) : ℚ) := by
    rw [one_mul, Nat.cast_sub hn]; simp
  simp [continuousOf, hcast, qfloor_eq, qceil_eq]

theorem discreteOf_zero (sorted : List ℚ) :
    discreteOf sorted 0 = sorted.getD 0 0 := by
  have hmin : min (0 : ℤ) (sorted.length : ℤ) = 0 :=
    min_eq_left (Int.natCast_nonneg _)
  have hmax : max (1 : ℤ) 0 = 1 := by decide
  simp [discreteOf, qceil_eq, hmin, hmax]

theorem discreteOf_one {sorted : List ℚ} (h : sorted ≠ []) :
    discreteOf sorted 1 = sorted.getD (sorted.length - 1) 0 := by
  have hn : 1 ≤ sorted.length := List.length_pos.mpr h
  have hn' : (1 : ℤ) ≤ (sorted.length : ℤ) := by exact_mod_cast hn
  have hmax : max (1 : ℤ) (sorted.length : ℤ) = (sorted.length : ℤ) :=
    max_eq_right hn'
  simp [discreteOf, qceil_eq, min_self, hmax]

theorem continuous_zero_min {S : List ℚ} (h : S ≠ []) :
    continuousOf (sortQ S) 0 ∈ S ∧ ∀ x ∈ S, continuousOf (sortQ S) 0 ≤ x := by
  rw [continuousOf_zero]
  exact ⟨sortQ_mem.mp (getD_zero_mem (sortQ_ne_nil h)),
    fun x hx => sorted_getD_zero_le (sortQ_sorted S) x (sortQ_mem.mpr hx)⟩

theorem continuous_one_max {S : List ℚ} (h : S ≠ []) :
    continuousOf (sortQ S) 1 ∈ S ∧ ∀ x ∈ S, x ≤ continuousOf (sortQ S) 1 := by
  rw [continuousOf_one (sortQ_ne_nil h)]
  exact ⟨sortQ_mem.mp (getD_last_mem (sortQ_ne_nil h)),
    fun x hx => sorted_le_getD_last (sortQ_sorted S) x (sortQ_mem.mpr hx)⟩

theorem discrete_zero_min {S : List ℚ} (h : S ≠ []) :
    discreteOf (sortQ S) 0 ∈ S ∧ ∀ x ∈ S, discreteOf (sortQ S) 0 ≤ x := by
  rw [discreteOf_zero]
  exact ⟨sortQ_mem.mp (getD_zero_mem (sortQ_ne_nil h)),
    fun x hx => sorted_getD_zero_le (sortQ_sorted S) x (sortQ_mem.mpr hx)⟩

theorem discrete_one_max {S : List ℚ} (h : S ≠ []) :
    discreteOf (sortQ S) 1 ∈ S ∧ ∀ x ∈ S, x ≤ discreteOf (sortQ S) 1 := by
  rw [discreteOf_one (sortQ_ne_nil h)]
  exact ⟨sortQ_mem.mp (getD_last_mem (sortQ_ne_nil h)),
    fun x hx => sorted_le_getD_last (sortQ_sorted S) x (sortQ_mem.mpr hx)⟩

theorem isEmpty_false_of_ne_nil {S : List ℚ} (h : S ≠ []) : S.isEmpty = false := by
  cases hS : S with
  | nil => exact absurd hS h
  | cons a t => rfl

/-- C1: for every non-empty sample set and fraction p in [0,1], the continuous
method returns the linear interpolation between the order statistics adjacent
to the fractional rank `p * (n - 1)` (0-indexed); p = 0 returns the exact
minimum and p = 1 the exact maximum; and on the sample set {0,1,2} with
fractions {0.5, 0.9, 0.1} the full accumulator returns exactly {1, 1.8, 0.2}
(exact rational equality, zero tolerance). -/
theorem C1_continuous_interpolation :
    (∀ (S : List ℚ) (p : ℚ), S ≠ [] → 0 ≤ p → p ≤ 1 →
      computePercentiles PercentileMethodEnum.kContinuous S [p]
        = [(1 - (p * ((S.length : ℚ) - 1)
                - (qfloor (p * ((S.length : ℚ) - 1)) : ℚ)))
             * (sortQ S).getD (qfloor (p * ((S.length : ℚ) - 1))).toNat 0
           + (p * ((S.length : ℚ) - 1)
                - (qfloor (p * ((S.length : ℚ) - 1)) : ℚ))
             * (sortQ S).getD (qceil (p * ((S.length : ℚ) - 1))).toNat 0]) ∧
    (∀ S : List ℚ, S ≠ [] →
      (continuousOf (sortQ S) 0 ∈ S ∧ ∀ x ∈ S, continuousOf (sortQ S) 0 ≤ x) ∧
      (continuousOf (sortQ S) 1 ∈ S ∧ ∀ x ∈ S, x ≤ continuousOf (sortQ S) 1)) ∧
    (ingestStream (AccumulatorPercentile.construct [1/2, 9/10, 1/10]
          PercentileMethodEnum.kContinuous 100000)
          [Value.num 0, Value.num 1, Value.num 2]).1.getValue false
      = Value.arr [Value.num 1, Value.num (9/5), Value.num (1/5)] := by
  refine ⟨fun S p hS hp0 hp1 => ?_,
    fun S hS => ⟨continuous_zero_min hS, continuous_one_max hS⟩,
    by with_unfolding_all rfl⟩
  have hne := isEmpty_false_of_ne_nil hS
  simp only [computePercentiles, hne, Bool.false_eq_true, if_false,
    List.map_cons, List.map_nil, computeOne]
  rw [continuousOf, sortQ_length]
  by_cases hcf : qceil (p * ((S.length : ℚ) - 1))
      = qfloor (p * ((S.length : ℚ) - 1))
  · rw [if_pos hcf, hcf]
    congr 1
    ring
  · rw [if_neg hcf]

/-- Witness for C1 at concrete inputs: for the non-empty set {0,1,2} and the
in-range fraction 0.9 the interpolation clause instantiates, and the p = 0
minimum applies: the continuous percentile at fraction 0 of {0,1,2} is a
member of the set bounded by the concrete member 2. -/
theorem C1_witness :
    computePercentiles PercentileMethodEnum.kContinuous [0, 1, 2] [9/10]
      = [(1 - ((9/10 : ℚ) * ((([0, 1, 2] : List ℚ).length : ℚ) - 1)
            - (qfloor ((9/10 : ℚ) * ((([0, 1, 2] : List ℚ).length : ℚ) - 1)) : ℚ)))
           * (sortQ [0, 1, 2]).getD
              (qfloor ((9/10 : ℚ) * ((([0, 1, 2] : List ℚ).length : ℚ) - 1))).toNat 0
         + ((9/10 : ℚ) * ((([0, 1, 2] : List ℚ).length : ℚ) - 1)
            - (qfloor ((9/10 : ℚ) * ((([0, 1, 2] : List ℚ).length : ℚ) - 1)) : ℚ))
           * (sortQ [0, 1, 2]).getD
              (qceil ((9/10 : ℚ) * ((([0, 1, 2] : List ℚ).length : ℚ) - 1))).toNat 0] ∧
    continuousOf (sortQ [0, 1, 2]) 0 ∈ ([0, 1, 2] : List ℚ) ∧
    continuousOf (sortQ [0, 1, 2]) 0 ≤ 2 := by
  have h := C1_continuous_interpolation
  have h1 := h.1 [0, 1, 2] (9/10) (by simp) (by norm_num) (by norm_num)
  have h2 := h.2.1 [0, 1, 2] (by simp)
  exact ⟨h1, h2.1.1, h2.1.2 2 (by simp)⟩

/-- C7: for every non-empty sample set of n values, the discrete method
returns the sorted value at rank `ceil(p * n)` (1-indexed) clamped to [1, n];
at fraction 0 it returns the exact minimum and at fraction 1 the exact
maximum, and the continuous method agrees with it at both extremes. -/
theorem C7_discrete_rank_and_extremes :
    (∀ (S : List ℚ) (p : ℚ), S ≠ [] →
      computePercentiles PercentileMethodEnum.kDiscrete S [p]
        = [(sortQ S).getD
            ((max 1 (min (qceil (p * (S.length : ℚ))) (S.length : ℤ))).toNat - 1) 0]) ∧
    (∀ S : List ℚ, S ≠ [] →
      (discreteOf (sortQ S) 0 ∈ S ∧ ∀ x ∈ S, discreteOf (sortQ S) 0 ≤ x) ∧
      (discreteOf (sortQ S) 1 ∈ S ∧ ∀ x ∈ S, x ≤ discreteOf (sortQ S) 1) ∧
      (continuousOf (sortQ S) 0 ∈ S ∧ ∀ x ∈ S, continuousOf (sortQ S) 0 ≤ x) ∧
      (continuousOf (sortQ S) 1 ∈ S ∧ ∀ x ∈ S, x ≤ continuousOf (sortQ S) 1) ∧
      discreteOf (sortQ S) 0 = continuousOf (sortQ S) 0 ∧
      discreteOf (sortQ S) 1 = continuousOf (sortQ S) 1) := by
  constructor
  · intro S p hS
    have hne := isEmpty_false_of_ne_nil hS
    simp only [computePercentiles, hne, Bool.false_eq_true, if_false,
      List.map_cons, List.map_nil, computeOne]
    rw [discreteOf, sortQ_length]
  · intro S hS
    refine ⟨discrete_zero_min hS, discrete_one_max hS,
      continuous_zero_min hS, continuous_one_max hS, ?_, ?_⟩
    · rw [discreteOf_zero, continuousOf_zero]
    · rw [discreteOf_one (sortQ_ne_nil hS), continuousOf_one (sortQ_ne_nil hS)]

/-- Witness for C7 at concrete inputs: for the set {5, 10, 27} the rank
formula instantiates at fraction 0.5 (yielding the concrete second order
statistic 10), and the discrete extremes instantiate: the discrete percentile
at fraction 0 is a member of the set bounded above by the member 27. -/
theorem C7_witness :
    computePercentiles PercentileMethodEnum.kDiscrete [5, 10, 27] [1/2]
      = [(sortQ [5, 10, 27]).getD
          ((max 1 (min (qceil ((1/2 : ℚ) * ((([5, 10, 27] : List ℚ).length : ℚ))))
            (([5, 10, 27] : List ℚ).length : ℤ))).toNat - 1) 0] ∧
    computePercentiles PercentileMethodEnum.kDiscrete [5, 10, 27] [1/2] = [10] ∧
    discreteOf (sortQ [5, 10, 27]) 0 ∈ ([5, 10, 27] : List ℚ) ∧
    discreteOf (sortQ [5, 10, 27]) 0 ≤ 27 := by
  have h := C7_discrete_rank_and_extremes
  have h1 := h.1 [5, 10, 27] (1/2) (by simp)
  have h2 := h.2 [5, 10, 27] (by simp)
  refine ⟨h1, by with_unfolding_all rfl, h2.1.1, h2.1.2 27 (by simp)⟩

theorem deserialize_serialize (b : List ℚ) : deserializeBuf (serializeBuf b) = b := by
  induction b with
  | nil => rfl
  | cons q t ih =>
    simpa [serializeBuf, deserializeBuf, numOf] using ih

theorem processInternal_merge_state (acc : AccumulatorPercentile) (v : Value) :
    (acc.processInternal v true).1
      = AccumulatorPercentile.mk acc.percentiles acc.method
          (acc.buffer ++ deserializeBuf v)
          (acc.memUsageTracker.set
            (accumulatorSizeofBytes
              + algoMemUsageBytes (acc.buffer ++ deserializeBuf v))) := by
  by_cases hm : accumulatorSizeofBytes + algoMemUsageBytes (acc.buffer ++ deserializeBuf v)
      ≤ acc.memUsageTracker.maxAllowedMemoryUsageBytes
  · simp [AccumulatorPercentile.processInternal,
      MemoryUsageTracker.withinMemoryLimit, MemoryUsageTracker.set, hm]
  · simp [AccumulatorPercentile.processInternal,
      MemoryUsageTracker.withinMemoryLimit, MemoryUsageTracker.set, hm]

theorem mergeState_eq (acc : AccumulatorPercentile) (v : Value) :
    mergeState acc v
      = AccumulatorPercentile.mk acc.percentiles acc.method
          (acc.buffer ++ deserializeBuf v)
          (acc.memUsageTracker.set
            (accumulatorSizeofBytes
              + algoMemUsageBytes (acc.buffer ++ deserializeBuf v))) :=
  processInternal_merge_state acc v

theorem processInternal_ingest_state (acc : AccumulatorPercentile) (v : Value)
    (hv : v.numeric = true) :
    (acc.processInternal v false).1
      = AccumulatorPercentile.mk acc.percentiles acc.method
          (acc.buffer ++ [v.coerceToDouble])
          (acc.memUsageTracker.set
            (accumulatorSizeofBytes
              + algoMemUsageBytes (acc.buffer ++ [v.coerceToDouble]))) := by
  by_cases hm : accumulatorSizeofBytes + algoMemUsageBytes (acc.buffer ++ [v.coerceToDouble])
      ≤ acc.memUsageTracker.maxAllowedMemoryUsageBytes
  · simp [AccumulatorPercentile.processInternal, hv,
      MemoryUsageTracker.withinMemoryLimit, MemoryUsageTracker.set, hm]
  · simp [AccumulatorPercentile.processInternal, hv,
      MemoryUsageTracker.withinMemoryLimit, MemoryUsageTracker.set, hm]

theorem mergeStream_ok : ∀ (vs : List Value) (acc acc' : AccumulatorPercentile),
    mergeStream acc vs = (acc', Except.ok ()) →
    acc'.buffer = acc.buffer ++ vs.foldr (fun v r => deserializeBuf v ++ r) [] ∧
    acc'.percentiles = acc.percentiles ∧ acc'.method = acc.method := by
  intro vs
  induction vs with
  | nil =>
    intro acc acc' h
    have h1 : acc = acc' := congrArg Prod.fst h
    subst h1
    simp
  | cons v rest ih =>
    intro acc acc' h
    have hunfold : mergeStream acc (v :: rest)
        = (match acc.processInternal v true with
          | (a, Except.ok _) => mergeStream a rest
          | (a, Except.error e) => (a, Except.error e)) := rfl
    rcases hp : acc.processInternal v true with ⟨a, r⟩
    rw [hunfold, hp] at h
    cases r with
    | error e =>
      have : (Except.error e : Except Err Unit) = Except.ok () := congrArg Prod.snd h
      cases this
    | ok u =>
      have ha : a = (acc.processInternal v true).1 := by rw [hp]
      have hfields := processInternal_merge_state acc v
      rw [← ha] at hfields
      obtain ⟨hb, hpct, hm⟩ := ih a acc' h
      refine ⟨?_, ?_, ?_⟩
      · rw [hb, hfields]
        simp [List.append_assoc]
      · rw [hpct, hfields]
      · rw [hm, hfields]

theorem ingestStream_nums_ok : ∀ (S : List ℚ) (acc acc' : AccumulatorPercentile),
    ingestStream acc (S.map Value.num) = (acc', Except.ok ()) →
    acc'.buffer = acc.buffer ++ S ∧
    acc'.percentiles = acc.percentiles ∧ acc'.method = acc.method := by
  intro S
  induction S with
  | nil =>
    intro acc acc' h
    have h1 : acc = acc' := congrArg Prod.fst h
    subst h1
    simp
  | cons q rest ih =>
    intro acc acc' h
    have hunfold : ingestStream acc ((q :: rest).map Value.num)
        = (match acc.processInternal (Value.num q) false with
          | (a, Except.ok _) => ingestStream a (rest.map Value.num)
          | (a, Except.error e) => (a, Except.error e)) := rfl
    rcases hp : acc.processInternal (Value.num q) false with ⟨a, r⟩
    rw [hunfold, hp] at h
    cases r with
    | error e =>
      have : (Except.error e : Except Err Unit) = Except.ok () := congrArg Prod.snd h
      cases this
    | ok u =>
      have ha : a = (acc.processInternal (Value.num q) false).1 := by rw [hp]
      have hfields := processInternal_ingest_state acc (Value.num q) rfl
      rw [← ha] at hfields
      obtain ⟨hb, hpct, hm⟩ := ih a acc' h
      refine ⟨?_, ?_, ?_⟩
      · rw [hb, hfields]
        simp [Value.coerceToDouble, List.append_assoc]
      · rw [hpct, hfields]
      · rw [hm, hfields]

theorem computePercentiles_perm {b1 b2 : List ℚ} (m : PercentileMethodEnum)
    (ps : List ℚ) (h : List.Perm b1 b2) :
    computePercentiles m b1 ps = computePercentiles m b2 ps := by
  by_cases hb : b1 = []
  · subst hb
    have hb2 : b2 = [] := (List.perm_nil.mp h.symm)
    subst hb2
    rfl
  · have hb2 : b2 ≠ [] := by
      intro hc
      subst hc
      exact hb (List.perm_nil.mp h)
    rw [computePercentiles, computePercentiles,
      isEmpty_false_of_ne_nil hb, isEmpty_false_of_ne_nil hb2]
    simp [sortQ_eq_of_perm h]

theorem getValue_false_of_perm {a b : AccumulatorPercentile}
    (hp : a.percentiles = b.percentiles) (hm : a.method = b.method)
    (hb : List.Perm a.buffer b.buffer) : a.getValue false = b.getValue false := by
  show formatFinalValue _ _ = formatFinalValue _ _
  rw [hp, hm, computePercentiles_perm b.method b.percentiles hb]

/-- C6: for the exact methods, merging the serialized snapshots of two
accumulators built from sample lists S1 and S2 into a fresh accumulator and
finalizing yields exactly the final value of ingesting S1 ++ S2 directly;
combining serialized snapshots is associative (two successive merges equal
one merge of the concatenated snapshot) and order-independent (either merge
order finalizes identically). -/
theorem C6_merge_semantics :
    (∀ (m : PercentileMethodEnum),
      (m = PercentileMethodEnum.kDiscrete ∨ m = PercentileMethodEnum.kContinuous) →
      ∀ (ps S1 S2 : List ℚ) (maxB : ℕ),
      (ingestStream (AccumulatorPercentile.construct ps m maxB)
          (S1.map Value.num)).2 = Except.ok () →
      (ingestStream (AccumulatorPercentile.construct ps m maxB)
          (S2.map Value.num)).2 = Except.ok () →
      (mergeStream (AccumulatorPercentile.construct ps m maxB)
          [(ingestStream (AccumulatorPercentile.construct ps m maxB)
              (S1.map Value.num)).1.getValue true,
           (ingestStream (AccumulatorPercentile.construct ps m maxB)
              (S2.map Value.num)).1.getValue true]).2 = Except.ok () →
      (ingestStream (AccumulatorPercentile.construct ps m maxB)
          ((S1 ++ S2).map Value.num)).2 = Except.ok () →
      (mergeStream (AccumulatorPercentile.construct ps m maxB)
          [(ingestStream (AccumulatorPercentile.construct ps m maxB)
              (S1.map Value.num)).1.getValue true,
           (ingestStream (AccumulatorPercentile.construct ps m maxB)
              (S2.map Value.num)).1.getValue true]).1.getValue false
        = (ingestStream (AccumulatorPercentile.construct ps m maxB)
            ((S1 ++ S2).map Value.num)).1.getValue false) ∧
    (∀ (acc : AccumulatorPercentile) (v1 v2 : Value),
      mergeState (mergeState acc v1) v2
        = mergeState acc (serializeBuf (deserializeBuf v1 ++ deserializeBuf v2))) ∧
    (∀ (acc : AccumulatorPercentile) (v1 v2 : Value),
      (mergeState (mergeState acc v1) v2).getValue false
        = (mergeState (mergeState acc v2) v1).getValue false) := by
  refine ⟨?_, ?_, ?_⟩
  · intro m _ ps S1 S2 maxB h1 h2 hM hD
    have e1 : ingestStream (AccumulatorPercentile.construct ps m maxB)
        (S1.map Value.num)
        = ((ingestStream (AccumulatorPercentile.construct ps m maxB)
            (S1.map Value.num)).1, (ingestStream
              (AccumulatorPercentile.construct ps m maxB) (S1.map Value.num)).2) := rfl
    rw [h1] at e1
    have e2 : ingestStream (AccumulatorPercentile.construct ps m maxB)
        (S2.map Value.num)
        = ((ingestStream (AccumulatorPercentile.construct ps m maxB)
            (S2.map Value.num)).1, (ingestStream
              (AccumulatorPercentile.construct ps m maxB) (S2.map Value.num)).2) := rfl
    rw [h2] at e2
    have eM : mergeStream (AccumulatorPercentile.construct ps m maxB)
        [(ingestStream (AccumulatorPercentile.construct ps m maxB)
            (S1.map Value.num)).1.getValue true,
         (ingestStream (AccumulatorPercentile.construct ps m maxB)
            (S2.map Value.num)).1.getValue true]
        = ((mergeStream (AccumulatorPercentile.construct ps m maxB)
            [(ingestStream (AccumulatorPercentile.construct ps m maxB)
                (S1.map Value.num)).1.getValue true,
             (ingestStream (AccumulatorPercentile.construct ps m maxB)
                (S2.map Value.num)).1.getValue true]).1,
           (mergeStream (AccumulatorPercentile.construct ps m maxB)
            [(ingestStream (AccumulatorPercentile.construct ps m maxB)
                (S1.map Value.num)).1.getValue true,
             (ingestStream (AccumulatorPercentile.construct ps m maxB)
                (S2.map Value.num)).1.getValue true]).2) := rfl
    rw [hM] at eM
    have eD : ingestStream (AccumulatorPercentile.construct ps m maxB)
        ((S1 ++ S2).map Value.num)
        = ((ingestStream (AccumulatorPercentile.construct ps m maxB)
            ((S1 ++ S2).map Value.num)).1, (ingestStream
              (AccumulatorPercentile.construct ps m maxB)
              ((S1 ++ S2).map Value.num)).2) := rfl
    rw [hD] at eD
    obtain ⟨hb1, hp1, hm1⟩ := ingestStream_nums_ok S1 _ _ e1
    obtain ⟨hb2, hp2, hm2⟩ := ingestStream_nums_ok S2 _ _ e2
    obtain ⟨hbM, hpM, hmM⟩ := mergeStream_ok _ _ _ eM
    obtain ⟨hbD, hpD, hmD⟩ := ingestStream_nums_ok (S1 ++ S2) _ _ eD
    apply getValue_false_of_perm
    · rw [hpM, hpD]
    · rw [hmM, hmD]
    · rw [hbM, hbD]
      have hser1 : (ingestStream (AccumulatorPercentile.construct ps m maxB)
          (S1.map Value.num)).1.getValue true
          = serializeBuf (ingestStream (AccumulatorPercentile.construct ps m maxB)
              (S1.map Value.num)).1.buffer := rfl
      have hser2 : (ingestStream (AccumulatorPercentile.construct ps m maxB)
          (S2.map Value.num)).1.getValue true
          = serializeBuf (ingestStream (AccumulatorPercentile.construct ps m maxB)
              (S2.map Value.num)).1.buffer := rfl
      rw [hser1, hser2, hb1, hb2]
      simp [AccumulatorPercentile.construct, deserialize_serialize]
  · intro acc v1 v2
    rw [mergeState_eq, mergeState_eq, mergeState_eq]
    simp [deserialize_serialize, List.append_assoc, MemoryUsageTracker.set]
  · intro acc v1 v2
    apply getValue_false_of_perm
    · rw [mergeState_eq, mergeState_eq, mergeState_eq, mergeState_eq]
    · rw [mergeState_eq, mergeState_eq, mergeState_eq, mergeState_eq]
    · rw [mergeState_eq, mergeState_eq, mergeState_eq, mergeState_eq]
      show List.Perm (acc.buffer ++ deserializeBuf v1 ++ deserializeBuf v2)
        (acc.buffer ++ deserializeBuf v2 ++ deserializeBuf v1)
      rw [List.append_assoc, List.append_assoc]
      exact List.Perm.append_left acc.buffer (List.perm_append_comm)

/-- Witness for C6 at concrete inputs: merging the snapshots of two discrete
accumulators holding {1} and {2} into a fresh one finalizes exactly as
ingesting {1, 2} directly. -/
theorem C6_witness :
    (mergeStream (AccumulatorPercentile.construct [1/2]
        PercentileMethodEnum.kDiscrete 100000)
        [(ingestStream (AccumulatorPercentile.construct [1/2]
            PercentileMethodEnum.kDiscrete 100000)
            (([1] : List ℚ).map Value.num)).1.getValue true,
         (ingestStream (AccumulatorPercentile.construct [1/2]
            PercentileMethodEnum.kDiscrete 100000)
            (([2] : List ℚ).map Value.num)).1.getValue true]).1.getValue false
      = (ingestStream (AccumulatorPercentile.construct [1/2]
          PercentileMethodEnum.kDiscrete 100000)
          ((([1] : List ℚ) ++ [2]).map Value.num)).1.getValue false :=
  C6_merge_semantics.1 PercentileMethodEnum.kDiscrete (Or.inl rfl) [1/2] [1] [2]
    100000 (by with_unfolding_all rfl) (by with_unfolding_all rfl)
    (by with_unfolding_all rfl) (by with_unfolding_all rfl)

/-- C3 counterexample: with the capability gate closed, requesting the
recognized method "discrete" produces the very same error — same
`BadValue` code, same message — as requesting an unrecognized method name,
so the claimed distinct `UnsupportedMethod` error kind does not exist. -/
theorem C3_counterexample :
    validatePercentileMethod false kDiscrete
      = validatePercentileMethod false "no-such-method" ∧
    errCodeOf (validatePercentileMethod false kDiscrete) = some ErrCode.badValue ∧
    errCodeOf (validatePercentileMethod false "no-such-method")
      = some ErrCode.badValue := by
  refine ⟨?_, ?_, ?_⟩ <;> rfl

/-- C3 (amended): when the capability gate is not granted, constructing with
method "discrete" or "continuous" fails with the same `BadValue` error kind
that unrecognized method names get (not a distinct kind), and the failure
message names the allowed set of methods (only "approximate" while the gate
is closed). -/
theorem C3_gate_closed_exact_methods :
    ∀ method : String, (method = kDiscrete ∨ method = kContinuous) →
      validatePercentileMethod false method
        = Except.error ⟨ErrCode.badValue,
            "Currently only \x27approximate\x27 can be used as percentile \x27method\x27."⟩ ∧
      (∀ other : String, other ≠ kApproximate →
        errCodeOf (validatePercentileMethod false other)
          = errCodeOf (validatePercentileMethod false method)) := by
  intro method hm
  have hne : method ≠ kApproximate := by
    rcases hm with h | h <;> subst h <;> decide
  constructor
  · simp [validatePercentileMethod, hne]
  · intro other ho
    simp [validatePercentileMethod, hne, ho, errCodeOf]

/-- Witness for C3 at concrete inputs: "discrete" under the closed gate gets
the `BadValue` error naming the allowed set, and the arbitrary unrecognized
name "foo" gets the same error kind. -/
theorem C3_witness :
    validatePercentileMethod false kDiscrete
      = Except.error ⟨ErrCode.badValue,
          "Currently only \x27approximate\x27 can be used as percentile \x27method\x27."⟩ ∧
    errCodeOf (validatePercentileMethod false "foo")
      = errCodeOf (validatePercentileMethod false kDiscrete) := by
  have h := C3_gate_closed_exact_methods kDiscrete (Or.inl rfl)
  exact ⟨h.1, h.2 "foo" (by decide)⟩

theorem validate_error_code {g : Bool} {m : String} {e : Err}
    (h : validatePercentileMethod g m = Except.error e) :
    e.code = ErrCode.badValue := by
  cases g with
  | false =>
    by_cases hm : m = kApproximate
    · simp [validatePercentileMethod, hm] at h
    · simp [validatePercentileMethod, hm] at h
      rw [← h]
  | true =>
    by_cases hm : m ≠ kApproximate ∧ m ≠ kDiscrete ∧ m ≠ kContinuous
    · simp only [validatePercentileMethod, if_pos hm, if_true] at h
      have := (Except.error.injEq _ _).mp h
      rw [← this]
    · simp [validatePercentileMethod, hm] at h

theorem parsePElems_error_code : ∀ {vs : List Value} {e : Err},
    parsePElems vs = Except.error e →
    e.code = ErrCode.location 7750302 ∨ e.code = ErrCode.location 7750303 := by
  intro vs
  induction vs with
  | nil => intro e h; cases h
  | cons pv rest ih =>
    intro e h
    by_cases hn : pv.numeric = true
    · by_cases hr : pv.coerceToDouble < 0 ∨ pv.coerceToDouble > 1
      · simp [parsePElems, hn, hr] at h
        right
        rw [← h]
      · simp only [parsePElems, hn, Bool.not_true, Bool.false_eq_true, if_false,
          if_neg hr] at h
        rcases hrest : parsePElems rest with e' | ps'
        · rw [hrest] at h
          have he : e' = e := by
            have := (Except.error.injEq _ _).mp h
            exact this
          rw [← he]
          exact ih hrest
        · rw [hrest] at h
          cases h
    · have hn' : pv.numeric = false := by
        cases hh : pv.numeric
        · rfl
        · exact absurd hh hn
      simp [parsePElems, hn'] at h
      left
      rw [← h]

theorem parsePElems_ok_map : ∀ {vs : List Value} {ps : List ℚ},
    parsePElems vs = Except.ok ps → ps = vs.map Value.coerceToDouble := by
  intro vs
  induction vs with
  | nil =>
    intro ps h
    have := (Except.ok.injEq _ _).mp h
    rw [← this]
    rfl
  | cons pv rest ih =>
    intro ps h
    by_cases hn : pv.numeric = true
    · by_cases hr : pv.coerceToDouble < 0 ∨ pv.coerceToDouble > 1
      · simp [parsePElems, hn, hr] at h
      · simp only [parsePElems, hn, Bool.not_true, Bool.false_eq_true, if_false,
          if_neg hr] at h
        rcases hrest : parsePElems rest with e' | ps'
        · rw [hrest] at h
          cases h
        · rw [hrest] at h
          have := (Except.ok.injEq _ _).mp h
          rw [← this, List.map_cons, ih hrest]
    · have hn' : pv.numeric = false := by
        cases hh : pv.numeric
        · rfl
        · exact absurd hh hn
      simp [parsePElems, hn'] at h

theorem parsePElems_ok_iff : ∀ vs : List Value,
    isError (parsePElems vs) = false ↔
      vs.all (fun v => v.numeric && decide (0 ≤ v.coerceToDouble)
        && decide (v.coerceToDouble ≤ 1)) = true := by
  intro vs
  induction vs with
  | nil => simp [parsePElems, isError]
  | cons pv rest ih =>
    by_cases hn : pv.numeric = true
    · by_cases hr : pv.coerceToDouble < 0 ∨ pv.coerceToDouble > 1
      · have hfail : (decide (0 ≤ pv.coerceToDouble)
            && decide (pv.coerceToDouble ≤ 1)) = false := by
          rcases hr with h | h
          · simp [not_le.mpr h]
          · simp [not_le.mpr h]
        simp [parsePElems, hn, hr, isError, List.all_cons, hfail]
      · rcases hrest : parsePElems rest with e' | ps'
        · have hl : isError (parsePElems (pv :: rest)) = true := by
            simp only [parsePElems, hn, Bool.not_true, Bool.false_eq_true, if_false,
              if_neg hr, hrest]
            rfl
          have hrf : rest.all (fun v => v.numeric && decide (0 ≤ v.coerceToDouble)
              && decide (v.coerceToDouble ≤ 1)) = false := by
            cases hra : rest.all (fun v => v.numeric && decide (0 ≤ v.coerceToDouble)
              && decide (v.coerceToDouble ≤ 1))
            · rfl
            · exact absurd (ih.mpr hra) (by simp [hrest, isError])
          simp [hl, List.all_cons, hrf]
        · have hl : isError (parsePElems (pv :: rest)) = false := by
            simp only [parsePElems, hn, Bool.not_true, Bool.false_eq_true, if_false,
              if_neg hr, hrest]
            rfl
          have h0 : (0 : ℚ) ≤ pv.coerceToDouble := by
            by_contra hc
            exact hr (Or.inl (not_le.mp hc))
          have h1 : pv.coerceToDouble ≤ 1 := by
            by_contra hc
            exact hr (Or.inr (not_le.mp hc))
          have hrt : rest.all (fun v => v.numeric && decide (0 ≤ v.coerceToDouble)
              && decide (v.coerceToDouble ≤ 1)) = true :=
            ih.mp (by simp [hrest, isError])
          simp [hl, List.all_cons, hn, h0, h1, hrt]
    · have hn' : pv.numeric = false := by
        cases hh : pv.numeric
        · rfl
        · exact absurd hh hn
      simp [parsePElems, hn', isError, List.all_cons]

theorem parseP_ok_iff : ∀ pExpr : PExpr,
    isError (parseP pExpr) = false ↔
      ∃ v, pExpr = PExpr.const v ∧ validFractionsValue v = true := by
  intro pExpr
  cases pExpr with
  | nonconst => simp [parseP, isError]
  | const v =>
    cases v with
    | arr vs =>
      by_cases hlen : vs.length = 0
      · have hnil : vs = [] := List.length_eq_zero.mp hlen
        subst hnil
        simp [parseP, isError, Value.isArray, Value.getArray, validFractionsValue]
      · have hcond : ¬((Value.arr vs).isArray = false
            ∨ (Value.arr vs).getArray.length = 0) := by
          simp [Value.isArray, Value.getArray, hlen]
        have hne : vs.isEmpty = false := by
          cases hv : vs with
          | nil => exact absurd (by rw [hv]; rfl) hlen
          | cons a t => rfl
        rw [parseP, if_neg hcond]
        simp only [Value.getArray]
        rw [parsePElems_ok_iff vs]
        simp [validFractionsValue, hne]
    | num q => simp [parseP, isError, Value.isArray, validFractionsValue]
    | null => simp [parseP, isError, Value.isArray, validFractionsValue]
    | str s => simp [parseP, isError, Value.isArray, validFractionsValue]
    | date ms => simp [parseP, isError, Value.isArray, validFractionsValue]
    | missing => simp [parseP, isError, Value.isArray, validFractionsValue]

theorem parseP_ok_map {pExpr : PExpr} {ps : List ℚ}
    (h : parseP pExpr = Except.ok ps) :
    ∃ v, pExpr = PExpr.const v ∧ ps = v.getArray.map Value.coerceToDouble := by
  cases pExpr with
  | nonconst => cases h
  | const v =>
    refine ⟨v, rfl, ?_⟩
    by_cases hcond : v.isArray = false ∨ v.getArray.length = 0
    · rw [parseP, if_pos hcond] at h
      cases h
    · rw [parseP, if_neg hcond] at h
      exact parsePElems_ok_map h

theorem validate_ok_iff (g : Bool) (m : String) :
    isError (validatePercentileMethod g m) = false ↔
      (methodRecognized m = true ∧ (g = true ∨ m = kApproximate)) := by
  cases g with
  | false =>
    by_cases hm : m = kApproximate
    · simp [validatePercentileMethod, hm, isError, methodRecognized]
    · simp [validatePercentileMethod, hm, isError]
  | true =>
    by_cases hm : m ≠ kApproximate ∧ m ≠ kDiscrete ∧ m ≠ kContinuous
    · have hr : methodRecognized m = false := by
        simp only [methodRecognized, Bool.or_eq_false_iff, beq_eq_false_iff_ne]
        exact ⟨⟨hm.1, hm.2.1⟩, hm.2.2⟩
      simp [validatePercentileMethod, hm, isError, hr]
    · have hr : methodRecognized m = true := by
        simp only [methodRecognized, Bool.or_eq_true, beq_iff_eq]
        by_cases h1 : m = kApproximate
        · exact Or.inl (Or.inl h1)
        · by_cases h2 : m = kDiscrete
          · exact Or.inl (Or.inr h2)
          · by_cases h3 : m = kContinuous
            · exact Or.inr h3
            · exact absurd ⟨h1, h2, h3⟩ hm
      simp [validatePercentileMethod, hm, isError, hr]

theorem validate_ok_recognized {g : Bool} {m : String} {u : Unit}
    (h : validatePercentileMethod g m = Except.ok u) : methodRecognized m = true :=
  ((validate_ok_iff g m).mp (by simp [h, isError])).1

theorem methodNameToEnum_ok {m : String} (h : methodRecognized m = true) :
    isError (methodNameToEnum m) = false := by
  simp only [methodRecognized, Bool.or_eq_true, beq_iff_eq] at h
  rcases h with (h | h) | h <;> subst h <;> rfl

theorem methodNameToEnum_error_code {m : String} {e : Err}
    (h : methodNameToEnum m = Except.error e) : e.code = ErrCode.location 7766600 := by
  by_cases h1 : m = kApproximate
  · rw [methodNameToEnum, if_pos h1] at h
    cases h
  · rw [methodNameToEnum, if_neg h1] at h
    by_cases h2 : m = kDiscrete
    · rw [if_pos h2] at h
      cases h
    · rw [if_neg h2] at h
      by_cases h3 : m = kContinuous
      · rw [if_pos h3] at h
        cases h
      · rw [if_neg h3] at h
        have he := (Except.error.injEq _ _).mp h
        rw [← he]

theorem parseP_error_spec {pExpr : PExpr} {e : Err}
    (h : parseP pExpr = Except.error e) : e.code.isSpecificationError = true := by
  cases pExpr with
  | nonconst =>
    have := (Except.error.injEq _ _).mp h
    rw [← this]
    rfl
  | const v =>
    by_cases hcond : v.isArray = false ∨ v.getArray.length = 0
    · rw [parseP, if_pos hcond] at h
      have := (Except.error.injEq _ _).mp h
      rw [← this]
      rfl
    · rw [parseP, if_neg hcond] at h
      rcases parsePElems_error_code h with hc | hc <;> rw [hc] <;> rfl

theorem createAccumulator_error_spec {g : Bool} {pExpr : PExpr} {m : String}
    {maxB : ℕ} {e : Err}
    (h : createAccumulator g pExpr m maxB = Except.error e) :
    e.code.isSpecificationError = true := by
  rcases hv : validatePercentileMethod g m with e1 | u
  · rw [createAccumulator, hv] at h
    have he : e1 = e := (Except.error.injEq _ _).mp h
    rw [← he, validate_error_code hv]
    rfl
  · rw [createAccumulator, hv] at h
    rcases hp : parseP pExpr with e2 | ps
    · rw [hp] at h
      have he : e2 = e := (Except.error.injEq _ _).mp h
      rw [← he]
      exact parseP_error_spec hp
    · rw [hp] at h
      rcases hm : methodNameToEnum m with e3 | mm
      · rw [hm] at h
        have he : e3 = e := (Except.error.injEq _ _).mp h
        rw [← he, methodNameToEnum_error_code hm]
        rfl
      · rw [hm] at h
        cases h

theorem createAccumulator_ok_iff (g : Bool) (pExpr : PExpr) (m : String) (maxB : ℕ) :
    isError (createAccumulator g pExpr m maxB) = false ↔
      (isError (validatePercentileMethod g m) = false ∧
       isError (parseP pExpr) = false) := by
  rcases hv : validatePercentileMethod g m with e1 | u
  · simp [createAccumulator, hv, isError]
  · rcases hp : parseP pExpr with e2 | ps
    · simp [createAccumulator, hv, hp, isError]
    · rcases hm : methodNameToEnum m with e3 | mm
      · have hok := methodNameToEnum_ok (validate_ok_recognized hv)
        rw [hm] at hok
        simp [isError] at hok
      · simp [createAccumulator, hv, hp, hm, isError]

theorem claimFailCond_iff (pExpr : PExpr) (m : String) :
    claimFailCond pExpr m = true ↔
      ((¬ ∃ v, pExpr = PExpr.const v ∧ validFractionsValue v = true) ∨
        methodRecognized m = false) := by
  cases pExpr with
  | nonconst => simp [claimFailCond]
  | const v =>
    by_cases hv : validFractionsValue v = true
    · simp [claimFailCond, hv]
    · have hv' : validFractionsValue v = false := by
        cases hh : validFractionsValue v
        · rfl
        · exact absurd hh hv
      simp [claimFailCond, hv']

/-- C8 counterexample: with the capability gate closed, constructing with the
recognized method "discrete" and a perfectly valid constant fraction array
[0.5] still fails with a specification error, so the claimed "if and only if"
condition set (which does not mention the gate) is too small: the
right-hand-side condition is false at this input while construction fails. -/
theorem C8_counterexample :
    errCodeOf (createAccumulator false
        (PExpr.const (Value.arr [Value.num (1/2)])) kDiscrete 1000)
      = some ErrCode.badValue ∧
    claimFailCond (PExpr.const (Value.arr [Value.num (1/2)])) kDiscrete = false := by
  constructor
  · with_unfolding_all rfl
  · with_unfolding_all rfl

/-- C8 (amended): construction fails with a specification error if and only
if the fraction argument is non-constant, empty, or contains a non-numeric
or out-of-range element, or the method name is outside the recognized set
{"approximate","discrete","continuous"}, or the capability gate is closed
and the method is not "approximate"; on success the accumulator stores
exactly the requested fractions, coerced in request order. -/
theorem C8_construction_validation :
    ∀ (gateEnabled : Bool) (pExpr : PExpr) (method : String) (maxBytes : ℕ),
      ((∃ e, createAccumulator gateEnabled pExpr method maxBytes = Except.error e ∧
          e.code.isSpecificationError = true) ↔
        (claimFailCond pExpr method = true ∨
          (gateEnabled = false ∧ method ≠ kApproximate))) ∧
      (∀ acc, createAccumulator gateEnabled pExpr method maxBytes = Except.ok acc →
        ∃ v, pExpr = PExpr.const v ∧
          acc.percentiles = v.getArray.map Value.coerceToDouble) := by
  intro g pExpr m maxB
  constructor
  · have herr : (∃ e, createAccumulator g pExpr m maxB = Except.error e ∧
        e.code.isSpecificationError = true) ↔
        isError (createAccumulator g pExpr m maxB) = true := by
      constructor
      · rintro ⟨e, he, _⟩
        rw [he]
        rfl
      · intro hc
        rcases hcr : createAccumulator g pExpr m maxB with e | acc
        · exact ⟨e, rfl, createAccumulator_error_spec hcr⟩
        · rw [hcr] at hc
          cases hc
    rw [herr]
    have hnot : isError (createAccumulator g pExpr m maxB) = true ↔
        ¬ isError (createAccumulator g pExpr m maxB) = false := by
      cases h : isError (createAccumulator g pExpr m maxB) <;> simp
    rw [hnot, createAccumulator_ok_iff, validate_ok_iff, parseP_ok_iff,
      claimFailCond_iff]
    have hrec : methodRecognized m = false ↔ ¬ methodRecognized m = true := by
      cases h : methodRecognized m <;> simp
    have hgate : (g = false ∧ m ≠ kApproximate) ↔ ¬ (g = true ∨ m = kApproximate) := by
      cases g <;> simp
    rw [hrec, hgate]
    generalize (∃ v, pExpr = PExpr.const v ∧ validFractionsValue v = true) = F
    tauto
  · intro acc hok
    rcases hv : validatePercentileMethod g m with e1 | u
    · rw [createAccumulator, hv] at hok
      cases hok
    · rw [createAccumulator, hv] at hok
      rcases hp : parseP pExpr with e2 | ps
      · rw [hp] at hok
        cases hok
      · rw [hp] at hok
        rcases hm : methodNameToEnum m with e3 | mm
        · rw [hm] at hok
          cases hok
        · rw [hm] at hok
          obtain ⟨v, hv', hps⟩ := parseP_ok_map hp
          refine ⟨v, hv', ?_⟩
          have ha : AccumulatorPercentile.construct ps mm maxB = acc :=
            (Except.ok.injEq _ _).mp hok
          rw [← ha, ← hps]
          rfl

/-- Witness for C8 at concrete inputs: with the gate open, a valid fraction
array and the method "continuous" construct successfully and store exactly
the coerced fraction 0.5; an out-of-range fraction 1.5 makes the failure
condition hold and construction fail with a specification error. -/
theorem C8_witness :
    (∃ v, PExpr.const (Value.arr [Value.num (1/2)]) = PExpr.const v ∧
      (AccumulatorPercentile.construct [1/2] PercentileMethodEnum.kContinuous
        1000).percentiles = v.getArray.map Value.coerceToDouble) ∧
    (∃ e, createAccumulator true (PExpr.const (Value.arr [Value.num (3/2)]))
        kContinuous 1000 = Except.error e ∧ e.code.isSpecificationError = true) := by
  have h1 := (C8_construction_validation true
    (PExpr.const (Value.arr [Value.num (1/2)])) kContinuous 1000).2
    (AccumulatorPercentile.construct [1/2] PercentileMethodEnum.kContinuous 1000)
    (by with_unfolding_all rfl)
  have h2 := ((C8_construction_validation true
    (PExpr.const (Value.arr [Value.num (3/2)])) kContinuous 1000).1).mpr
    (Or.inl (by with_unfolding_all rfl))
  exact ⟨h1, h2⟩
